import Mathlib

/-!
Verification of the streaming test-report aggregator in `goctest.go`.

Go strings are modelled as `List Char` (`GoStr`); Go `int` as `Int` with
Go's truncated division `Int.tdiv` / `Int.tmod`; the in-flight buffer map
`map[string][]*TestEvent` as an association list with Go map semantics
(lookup of a missing key yields the empty slice, assignment replaces,
delete removes).  The driver loop body of `main` (the part that adjusts
the display prefix, tallies counters and maintains the in-flight buffer
and the failure log) is `step`; a whole run over a decoded event stream
is `runEvents`.
-/

/-- A Go string, as its sequence of characters. -/
abbrev GoStr := List Char

/-- The sentinel `unsetPrefix = " -(unset)- "` from goctest.go. -/
def unsetPrefix : GoStr := " -(unset)- ".data

/-- One decoded `test2json` record (struct `TestEvent` in goctest.go).
`pfx` is the private `prefix` field that `main` fills in with the display
prefix in effect when the event was decoded. -/
structure TestEvent where
  Action : GoStr
  Package : GoStr
  Test : GoStr
  Output : GoStr
  pfx : GoStr
  deriving DecidableEq

/-- Go `strings.TrimPrefix s p`. -/
def trimPrefix (s p : GoStr) : GoStr :=
  if p.isPrefixOf s then s.drop p.length else s

/-- Method `(*TestEvent).pkg()`: the display form of the package name,
with the display prefix elided and replaced by `…`. -/
def TestEvent.pkg (ev : TestEvent) : GoStr :=
  if ev.pfx = [] ∨ ev.pfx = unsetPrefix then ev.Package
  else
    let p := trimPrefix ev.Package ev.pfx
    '…' :: (if p = [] then ['/'] else p)

/-- Method `(*TestEvent).name()`: the rendered test identity, used by
`main` as the key of the in-flight buffer. -/
def TestEvent.name (ev : TestEvent) : GoStr :=
  let p := ev.pkg
  if p = [] then ev.Test else p ++ ':' :: ev.Test

/-- The rendered name as a function of the attached prefix, the package
and the test name (the only fields `name()` reads). -/
def nameOf (px pkg t : GoStr) : GoStr :=
  TestEvent.name { Action := [], Package := pkg, Test := t, Output := [], pfx := px }

/-- Struct `sums` from goctest.go. -/
structure sums where
  total : Int
  failed : Int
  skipped : Int
  passed : Int
  deriving DecidableEq

/-- `(*sums).addFail()`. -/
def sums.addFail (s : sums) : sums := { s with failed := s.failed + 1, total := s.total + 1 }

/-- `(*sums).addSkip()`. -/
def sums.addSkip (s : sums) : sums := { s with skipped := s.skipped + 1, total := s.total + 1 }

/-- `(*sums).addPass()`. -/
def sums.addPass (s : sums) : sums := { s with total := s.total + 1, passed := s.passed + 1 }

/-- The `switch ev.Action` body of `(*summary).add`: which of the three
increments (if any) a given action triggers on one `sums` structure. -/
def sums.record (s : sums) (action : GoStr) : sums :=
  if action = "pass".data then s.addPass
  else if action = "skip".data then s.addSkip
  else if action = "fail".data then s.addFail
  else s

/-- Struct `summary` from goctest.go. -/
structure summary where
  tests : sums
  packages : sums
  deriving DecidableEq

/-- `(*summary).add`: package-scoped events (empty `Test`) are tallied in
`packages`, test-scoped events in `tests`. -/
def summary.add (ss : summary) (ev : TestEvent) : summary :=
  if ev.Test = [] then { ss with packages := ss.packages.record ev.Action }
  else { ss with tests := ss.tests.record ev.Action }

/-- `(*summary).isZero()`. -/
def summary.isZero (ss : summary) : Bool :=
  decide (ss.tests.total - ss.tests.skipped ≤ 0)

/-- The colour escapes used by `(*summary).big`. -/
def zero : String := "\x1b[38;5;172m"

/-- Reset escape `endc`. -/
def endc : String := "\x1b[0m"

/-- The 9-entry red→green blend table inside `colourForRatio`. -/
def colourTable : List String :=
  ["175;0", "174;47", "169;72", "160;94", "147;113", "130;130", "109;146", "78;161", "0;175"]

/-- The bucket index computed by `colourForRatio`:
`r := (9*p)/q; if r == 9 { r = 8 }; if r < 0 { r = 0 }`. -/
def colourBucket (p q : Int) : Int :=
  let r := Int.tdiv (9 * p) q
  let r' := if r = 9 then 8 else r
  if r' < 0 then 0 else r'

/-- `colourForRatio` from goctest.go (the table lookup rendered with
`List.getD`, which agrees with Go indexing whenever the index is in
bounds). -/
def colourForRatio (p q : Int) : String :=
  "\x1b[38;2;" ++ colourTable.getD (colourBucket p q).toNat "" ++ ";0m"

/-- Struct `font` from the fonts file. -/
structure font where
  numerals : List (List String)
  percent : List String
  passed : List String
  tests : List String
  run : List String
  space : String
  deriving DecidableEq

/-- The `boring` font from the fonts file. -/
def boringFont : font :=
  { numerals := [["0"], ["1"], ["2"], ["3"], ["4"], ["5"], ["6"], ["7"], ["8"], ["9"]]
    percent := ["%"], passed := ["passed."], tests := ["tests"], run := ["run."], space := " " }

/-- The percentage `p` computed at the top of `(*summary).big`:
zero when `isZero()`, otherwise `100*passed/(total-skipped)` clamped
to `[0, 100]`. -/
def summary.bigPercent (ss : summary) : Int :=
  if ss.isZero then 0
  else
    let p := Int.tdiv (100 * ss.tests.passed) (ss.tests.total - ss.tests.skipped)
    if p > 100 then 100 else if p < 0 then 0 else p

/-- The lines `(*summary).big` produces when `isZero()` holds: the
neutral "<0> tests run" glyph rendering, independent of the counters. -/
def bigZeroLines (fnt : font) : List String :=
  (List.range (fnt.numerals.getD 0 []).length).map fun i =>
    String.intercalate fnt.space
      [zero ++ (fnt.numerals.getD 0 []).getD i "", fnt.tests.getD i "", fnt.run.getD i "" ++ endc]

/-- `(*summary).big` from goctest.go. -/
def summary.big (ss : summary) (fnt : font) : List String :=
  let p := ss.bigPercent
  let d := Int.tmod p 10
  let r := Int.tdiv p 10
  (List.range (fnt.numerals.getD 0 []).length).map fun i =>
    if ss.isZero then
      String.intercalate fnt.space
        [zero ++ (fnt.numerals.getD 0 []).getD i "", fnt.tests.getD i "", fnt.run.getD i "" ++ endc]
    else
      let line0 := colourForRatio ss.tests.passed (ss.tests.total - ss.tests.skipped)
      let line0 :=
        if p = 100 then
          line0 ++ (fnt.numerals.getD 1 []).getD i "" ++ (fnt.numerals.getD 0 []).getD i ""
            ++ (fnt.numerals.getD 0 []).getD i "" ++ fnt.percent.getD i ""
        else
          (if r > 0 then line0 ++ (fnt.numerals.getD r.toNat []).getD i "" else line0)
            ++ (fnt.numerals.getD d.toNat []).getD i "" ++ fnt.percent.getD i ""
      String.intercalate fnt.space [line0, fnt.tests.getD i "", fnt.passed.getD i "" ++ endc]

/-- The byte loop of `common`, carrying the loop index and the index
`last` of the latest `'/'` seen inside the matched region (`-1` when
none yet). -/
def commonLoop : GoStr → GoStr → Nat → Int → Int
  | [], _, _, last => last
  | _ :: _, [], _, last => last
  | a :: as, b :: bs, i, last =>
    if a ≠ b then last
    else commonLoop as bs (i + 1) (if a = '/' then (i : Int) else last)

/-- `common` from goctest.go: identical strings are returned whole;
otherwise the shorter string is cut just before the last `'/'` of the
common byte region, and the result collapses to `""` when that region
contains no `'/'`. -/
def common (a b : GoStr) : GoStr :=
  if a = b then a
  else
    let ab := if a.length > b.length then (b, a) else (a, b)
    let last := commonLoop ab.1 ab.2 0 (-1)
    if last = -1 then [] else ab.1.take last.toNat

/-- The prefix-adjustment step at the top of the decode loop in `main`:
an unset prefix is seeded from the event's package; a prefix the package
does not start with is narrowed via `common`. -/
def nextPrefix (p pkg : GoStr) : GoStr :=
  if p = unsetPrefix then pkg
  else if p.isPrefixOf pkg then p
  else common p pkg

/-- The prefix obtained by feeding a sequence of package identifiers to
the adjustment step, starting unset. -/
def inferPrefix (ids : List GoStr) : GoStr :=
  ids.foldl nextPrefix unsetPrefix

/-- Go map lookup on the association-list model of
`inProgress map[string][]*TestEvent`: a missing key yields `nil`. -/
def mapGet : List (GoStr × List TestEvent) → GoStr → List TestEvent
  | [], _ => []
  | kv :: m, k => if kv.1 = k then kv.2 else mapGet m k

/-- Go `delete(m, k)`. -/
def mapDel (m : List (GoStr × List TestEvent)) (k : GoStr) : List (GoStr × List TestEvent) :=
  m.filter fun kv => kv.1 ≠ k

/-- Go `m[k] = v`. -/
def mapSet (m : List (GoStr × List TestEvent)) (k : GoStr) (v : List TestEvent) :
    List (GoStr × List TestEvent) :=
  (k, v) :: mapDel m k

/-- The mutable state of the decode loop in `main`: the display prefix,
the two counter structures, the failure log `fails` and the in-flight
buffer `inProgress`. -/
structure LoopState where
  pfx : GoStr
  sums : summary
  fails : List TestEvent
  inProgress : List (GoStr × List TestEvent)
  deriving DecidableEq

/-- One iteration of the decode loop in `main` on a decoded event:
adjust the prefix, attach it, tally, and update the in-flight buffer
(`default:` buffers, `fail` moves the entry into `fails` and deletes it,
`pass`/`skip` delete it; package-scoped events leave the buffer alone). -/
def step (st : LoopState) (e : TestEvent) : LoopState :=
  let p := nextPrefix st.pfx e.Package
  let ev : TestEvent := { e with pfx := p }
  let newSums := st.sums.add ev
  if ev.Test ≠ [] then
    let nm := ev.name
    if ev.Action = "fail".data then
      { pfx := p, sums := newSums, fails := st.fails ++ mapGet st.inProgress nm,
        inProgress := mapDel st.inProgress nm }
    else if ev.Action = "pass".data ∨ ev.Action = "skip".data then
      { pfx := p, sums := newSums, fails := st.fails, inProgress := mapDel st.inProgress nm }
    else
      { pfx := p, sums := newSums, fails := st.fails,
        inProgress := mapSet st.inProgress nm (mapGet st.inProgress nm ++ [ev]) }
  else
    { pfx := p, sums := newSums, fails := st.fails, inProgress := st.inProgress }

/-- The zero value of `sums`. -/
def zeroSums : sums := { total := 0, failed := 0, skipped := 0, passed := 0 }

/-- The zero value of `summary` (`var sums summary` in `main`). -/
def zeroSummary : summary := { tests := zeroSums, packages := zeroSums }

/-- The loop state at the start of the decode loop, with a given initial
prefix (`unsetPrefix` when neither `-trim` nor `go list -m` supplied one). -/
def initialState (p0 : GoStr) : LoopState :=
  { pfx := p0, sums := zeroSummary, fails := [], inProgress := [] }

/-- A whole run of the decode loop over a decoded event stream. -/
def runEvents (p0 : GoStr) (evs : List TestEvent) : LoopState :=
  evs.foldl step (initialState p0)

/-- The actions the decode loop buffers (the `default:` case): everything
that is not one of the three terminal actions `fail`, `pass`, `skip`. -/
def bufferedAction (a : GoStr) : Prop :=
  a ≠ "fail".data ∧ a ≠ "pass".data ∧ a ≠ "skip".data

instance (a : GoStr) : Decidable (bufferedAction a) := by
  unfold bufferedAction; infer_instance

/-- Modelled from the spec's words: `p` is a "segment-granularity prefix"
of `s` when it is a string prefix that is moreover cut at a segment
boundary of `s` — it is all of `s`, or the next character of `s` is the
separator, or `p` itself ends in the separator ("never a partial-segment
truncation such as cutting foo/bar to foo/ba"). -/
def isSegPrefixOf (p s : GoStr) : Prop :=
  p.isPrefixOf s ∧ (p.length = s.length ∨ s.getD p.length ' ' = '/' ∨ p.getLast? = some '/')

instance (p s : GoStr) : Decidable (isSegPrefixOf p s) := by
  unfold isSegPrefixOf; infer_instance

/-- The embedding of `common` reproduces the expectation table of the
repository's own `TestCommon` unit test. -/
theorem common_matches_go_unit_tests :
    common "foo".data "".data = [] ∧
      common "foo".data "bar".data = [] ∧
      common "fo".data "foo".data = [] ∧
      common "foo/ba".data "foo/bar".data = "foo".data ∧
      common "foo/bar".data "foo/baz".data = "foo".data ∧
      common "foo/bar/baz/quux/moo/blah".data "foo/zip".data = "foo".data ∧
      common "foo/bar".data "foo/bar".data = "foo/bar".data ∧
      common "foo/bar".data "foo/ba".data = "foo".data := by
  decide

/-! ## Basic lemmas about the association-list map -/

theorem mapGet_del_self (m : List (GoStr × List TestEvent)) (k : GoStr) :
    mapGet (mapDel m k) k = [] := by
  induction m with
  | nil => rfl
  | cons kv m ih =>
      by_cases h : kv.1 = k
      · simpa [mapDel, List.filter, h] using ih
      · simpa [mapDel, List.filter, h, mapGet] using ih

theorem mapGet_del_ne (m : List (GoStr × List TestEvent)) (k k' : GoStr) (h : k' ≠ k) :
    mapGet (mapDel m k) k' = mapGet m k' := by
  induction m with
  | nil => rfl
  | cons kv m ih =>
      by_cases hk : kv.1 = k
      · have hdel : mapDel (kv :: m) k = mapDel m k := by
          simp [mapDel, List.filter_cons, hk]
        have hkk' : kv.1 ≠ k' := by rw [hk]; exact fun hh => h hh.symm
        rw [hdel, ih]
        simp [mapGet, hkk']
      · have hdel : mapDel (kv :: m) k = kv :: mapDel m k := by
          simp [mapDel, List.filter_cons, hk]
        rw [hdel]
        by_cases hk' : kv.1 = k'
        · simp [mapGet, hk']
        · simp [mapGet, hk', ih]

theorem mapGet_set_self (m : List (GoStr × List TestEvent)) (k : GoStr) (v : List TestEvent) :
    mapGet (mapSet m k v) k = v := by
  simp [mapSet, mapGet]

theorem mapGet_set_ne (m : List (GoStr × List TestEvent)) (k : GoStr) (v : List TestEvent)
    (k' : GoStr) (h : k' ≠ k) : mapGet (mapSet m k v) k' = mapGet m k' := by
  have : k ≠ k' := fun hh => h hh.symm
  simp [mapSet, mapGet, this, mapGet_del_ne m k k' h]

/-! ## `common` returns a common prefix of its two arguments -/

theorem commonLoop_spec (a : GoStr) : ∀ (b : GoStr) (i : Nat) (last : Int),
    commonLoop a b i last = last ∨
      ∃ k : Nat, commonLoop a b i last = ((i + k : Nat) : Int) ∧
        k < a.length ∧ k < b.length ∧ a.take (k + 1) = b.take (k + 1) := by
  induction a with
  | nil => intro b i last; left; cases b <;> rfl
  | cons x xs ih =>
      intro b i last
      cases b with
      | nil => left; rfl
      | cons y ys =>
          by_cases hxy : x = y
          · have hstep : commonLoop (x :: xs) (y :: ys) i last
                = commonLoop xs ys (i + 1) (if x = '/' then (i : Int) else last) := by
              simp [commonLoop, hxy]
            rcases ih ys (i + 1) (if x = '/' then (i : Int) else last) with h | ⟨k, hk, hka, hkb, hkt⟩
            · by_cases hslash : x = '/'
              · right
                refine ⟨0, ?_, by simp, by simp, ?_⟩
                · rw [hstep, h, if_pos hslash]; simp
                · simp [List.take, hxy]
              · left; rw [hstep, h, if_neg hslash]
            · right
              refine ⟨k + 1, ?_, by simpa using Nat.succ_lt_succ hka,
                  by simpa using Nat.succ_lt_succ hkb, ?_⟩
              · rw [hstep, hk]; congr 1; omega
              · simp [List.take, hxy, hkt]
          · left; simp [commonLoop, hxy]

theorem take_eq_of_take_succ_eq {a b : GoStr} {k : Nat} (h : a.take (k + 1) = b.take (k + 1)) :
    a.take k = b.take k := by
  have := congrArg (List.take k) h
  simpa [List.take_take, Nat.min_def] using this

theorem common_prefix_both (a b : GoStr) : common a b <+: a ∧ common a b <+: b := by
  by_cases hab : a = b
  · subst hab; simp [common]
  · rw [common, if_neg hab]
    by_cases hlen : a.length > b.length
    · simp only [if_pos hlen]
      rcases commonLoop_spec b a 0 (-1) with h | ⟨k, hk, hkb, hka, hkt⟩
      · simp [h]
      · have hne : commonLoop b a 0 (-1) ≠ -1 := by rw [hk]; omega
        simp only [hk, if_neg (by omega : ((0 + k : Nat) : Int) ≠ -1)]
        have htn : ((0 + k : Nat) : Int).toNat = k := by omega
        rw [htn]
        constructor
        · exact (take_eq_of_take_succ_eq hkt) ▸ List.take_prefix k a
        · exact List.take_prefix k b
    · simp only [if_neg hlen]
      rcases commonLoop_spec a b 0 (-1) with h | ⟨k, hk, hka, hkb, hkt⟩
      · simp [h]
      · simp only [hk, if_neg (by omega : ((0 + k : Nat) : Int) ≠ -1)]
        have htn : ((0 + k : Nat) : Int).toNat = k := by omega
        rw [htn]
        constructor
        · exact List.take_prefix k a
        · exact (take_eq_of_take_succ_eq hkt) ▸ List.take_prefix k b

theorem nextPrefix_prefix (p pkg : GoStr) : nextPrefix p pkg <+: pkg := by
  unfold nextPrefix
  by_cases h1 : p = unsetPrefix
  · simp [h1]
  · by_cases h2 : p.isPrefixOf pkg
    · simpa [h1, h2] using List.isPrefixOf_iff_prefix.mp h2
    · simpa [h1, h2] using (common_prefix_both p pkg).2

theorem nextPrefix_prefix_old (p pkg : GoStr) (hp : p ≠ unsetPrefix) :
    nextPrefix p pkg <+: p := by
  unfold nextPrefix
  by_cases h2 : p.isPrefixOf pkg
  · simp [hp, h2]
  · simpa [hp, h2] using (common_prefix_both p pkg).1

theorem nextPrefix_ne_unset (p pkg : GoStr) (h : ¬ unsetPrefix <+: pkg) :
    nextPrefix p pkg ≠ unsetPrefix := by
  intro hu
  exact h (hu ▸ nextPrefix_prefix p pkg)

/-! ## The rendered name: what it depends on -/

/-- The display form of a package, as a function of the attached prefix
and the package identifier (the only fields `pkg()` reads). -/
def pkgOf (px pkg : GoStr) : GoStr :=
  TestEvent.pkg { Action := [], Package := pkg, Test := [], Output := [], pfx := px }

theorem name_eq_nameOf (ev : TestEvent) : ev.name = nameOf ev.pfx ev.Package ev.Test := rfl

theorem nameOf_eq (px pkg t : GoStr) :
    nameOf px pkg t = if pkgOf px pkg = [] then t else pkgOf px pkg ++ ':' :: t := rfl

theorem nameOf_inj (px pkg : GoStr) {t t' : GoStr} (h : nameOf px pkg t = nameOf px pkg t') :
    t = t' := by
  rw [nameOf_eq, nameOf_eq] at h
  by_cases hp : pkgOf px pkg = []
  · rwa [if_pos hp, if_pos hp] at h
  · rw [if_neg hp, if_neg hp] at h
    exact (List.cons.injEq _ _ _ _ ▸ List.append_cancel_left h).2

/-! ## Characterizations of one decode-loop iteration -/

theorem step_pfx (st : LoopState) (e : TestEvent) :
    (step st e).pfx = nextPrefix st.pfx e.Package := by
  simp only [step]
  split_ifs <;> rfl

theorem step_eq_pkgscope (st : LoopState) (e : TestEvent) (h : e.Test = []) :
    step st e = { pfx := nextPrefix st.pfx e.Package,
                  sums := st.sums.add { e with pfx := nextPrefix st.pfx e.Package },
                  fails := st.fails, inProgress := st.inProgress } := by
  simp [step, h]

theorem step_eq_fail (st : LoopState) (e : TestEvent) (h : e.Test ≠ [])
    (ha : e.Action = "fail".data) :
    step st e = { pfx := nextPrefix st.pfx e.Package,
                  sums := st.sums.add { e with pfx := nextPrefix st.pfx e.Package },
                  fails := st.fails ++ mapGet st.inProgress
                    (TestEvent.name { e with pfx := nextPrefix st.pfx e.Package }),
                  inProgress := mapDel st.inProgress
                    (TestEvent.name { e with pfx := nextPrefix st.pfx e.Package }) } := by
  simp [step, h, ha]

theorem step_eq_passskip (st : LoopState) (e : TestEvent) (h : e.Test ≠ [])
    (hf : e.Action ≠ "fail".data) (ha : e.Action = "pass".data ∨ e.Action = "skip".data) :
    step st e = { pfx := nextPrefix st.pfx e.Package,
                  sums := st.sums.add { e with pfx := nextPrefix st.pfx e.Package },
                  fails := st.fails,
                  inProgress := mapDel st.inProgress
                    (TestEvent.name { e with pfx := nextPrefix st.pfx e.Package }) } := by
  simp [step, h, hf, ha]

theorem step_eq_buffer (st : LoopState) (e : TestEvent) (h : e.Test ≠ [])
    (hb : bufferedAction e.Action) :
    step st e = { pfx := nextPrefix st.pfx e.Package,
                  sums := st.sums.add { e with pfx := nextPrefix st.pfx e.Package },
                  fails := st.fails,
                  inProgress := mapSet st.inProgress
                    (TestEvent.name { e with pfx := nextPrefix st.pfx e.Package })
                    (mapGet st.inProgress
                      (TestEvent.name { e with pfx := nextPrefix st.pfx e.Package })
                      ++ [{ e with pfx := nextPrefix st.pfx e.Package }]) } := by
  obtain ⟨h1, h2, h3⟩ := hb
  simp [step, h, h1, h2, h3]

/-! ## Prefix-inferencer invariants (claims C3, C4, C10) -/

theorem inferPrefix_aux (ids : List GoStr) : ∀ p0 : GoStr, p0 ≠ unsetPrefix →
    (∀ id ∈ ids, ¬ unsetPrefix <+: id) →
    (ids.foldl nextPrefix p0 ≠ unsetPrefix) ∧ (ids.foldl nextPrefix p0 <+: p0) ∧
      ∀ id ∈ ids, ids.foldl nextPrefix p0 <+: id := by
  induction ids with
  | nil => intro p0 h0 _; exact ⟨h0, List.prefix_refl p0, by simp⟩
  | cons e es ih =>
      intro p0 h0 hs
      have he : ¬ unsetPrefix <+: e := hs e (by simp)
      have h1 : nextPrefix p0 e ≠ unsetPrefix := nextPrefix_ne_unset p0 e he
      have h2 : nextPrefix p0 e <+: p0 := nextPrefix_prefix_old p0 e h0
      have h3 : nextPrefix p0 e <+: e := nextPrefix_prefix p0 e
      obtain ⟨q1, q2, q3⟩ := ih (nextPrefix p0 e) h1 fun id hid => hs id (by simp [hid])
      rw [List.foldl_cons]
      refine ⟨q1, q2.trans h2, ?_⟩
      intro id hid
      rcases List.mem_cons.mp hid with hh | hh
      · exact hh ▸ q2.trans h3
      · exact q3 id hh

/-- C3: as frozen the claim is falsified below; this is the amended form.
For every sequence of package identifiers (none of which starts with the
internal `unsetPrefix` sentinel) fed to the prefix-narrowing step from
the unset state, after each observation the current prefix is a
byte-level string prefix of every identifier observed so far, and from
the first observation on the prefix's length never increases. -/
theorem claim_C3 (ids : List GoStr) (hs : ∀ id ∈ ids, ¬ unsetPrefix <+: id)
    (n : Nat) (hn : 0 < n) :
    (∀ id ∈ ids.take n, inferPrefix (ids.take n) <+: id) ∧
    ∀ m : Nat, n ≤ m →
      (inferPrefix (ids.take m)).length ≤ (inferPrefix (ids.take n)).length := by
  cases ids with
  | nil => simp [inferPrefix]
  | cons a as =>
      obtain ⟨n', rfl⟩ : ∃ n', n = n' + 1 := ⟨n - 1, by omega⟩
      have ha : ¬ unsetPrefix <+: a := hs a (by simp)
      have ha' : a ≠ unsetPrefix := fun hh => ha (hh ▸ List.prefix_refl a)
      have hstart : nextPrefix unsetPrefix a = a := by simp [nextPrefix]
      have hinf : ∀ l : List GoStr, inferPrefix (a :: l) = l.foldl nextPrefix a := by
        intro l; simp [inferPrefix, List.foldl_cons, hstart]
      have hsub : ∀ id ∈ as.take n', ¬ unsetPrefix <+: id := fun id hid =>
        hs id (List.mem_cons_of_mem a (List.take_subset _ _ hid))
      obtain ⟨q1, q2, q3⟩ := inferPrefix_aux (as.take n') a ha' hsub
      constructor
      · intro id hid
        rw [List.take_succ_cons] at hid
        rw [List.take_succ_cons, hinf]
        rcases List.mem_cons.mp hid with hh | hh
        · exact hh ▸ q2
        · exact q3 id hh
      · intro m hm
        have hsplit : (a :: as).take m
            = (a :: as).take (n' + 1) ++ ((a :: as).drop (n' + 1)).take (m - (n' + 1)) := by
          rw [← List.take_add]; congr 1; omega
        have hq1 : inferPrefix ((a :: as).take (n' + 1)) ≠ unsetPrefix := by
          rw [List.take_succ_cons, hinf]; exact q1
        have hsub2 : ∀ id ∈ ((a :: as).drop (n' + 1)).take (m - (n' + 1)),
            ¬ unsetPrefix <+: id := fun id hid =>
          hs id (List.drop_subset _ _ (List.take_subset _ _ hid))
        obtain ⟨_, r2, _⟩ := inferPrefix_aux (((a :: as).drop (n' + 1)).take (m - (n' + 1)))
          (inferPrefix ((a :: as).take (n' + 1))) hq1 hsub2
        have : inferPrefix ((a :: as).take m)
            = (((a :: as).drop (n' + 1)).take (m - (n' + 1))).foldl nextPrefix
                (inferPrefix ((a :: as).take (n' + 1))) := by
          rw [hsplit]; simp [inferPrefix, List.foldl_append]
        rw [this]
        exact r2.length_le

/-- C3 counterexample: feeding `"foo/ba"` then `"foo/bar"` leaves the
prefix at `"foo/ba"`, which is a partial-segment truncation of
`"foo/bar"` — exactly the cut the claim says never happens — so the
prefix is not a segment-granularity prefix of every identifier observed. -/
theorem claim_C3_counterexample :
    inferPrefix ["foo/ba".data, "foo/bar".data] = "foo/ba".data ∧
      ¬ isSegPrefixOf (inferPrefix ["foo/ba".data, "foo/bar".data]) "foo/bar".data := by
  decide

/-- Witness for C3 at a concrete observation sequence. -/
theorem claim_C3_witness :
    inferPrefix (["a/b/c".data, "a/b/d".data].take 2) <+: "a/b/c".data ∧
      (inferPrefix (["a/b/c".data, "a/b/d".data].take 5)).length
        ≤ (inferPrefix (["a/b/c".data, "a/b/d".data].take 2)).length := by
  have h := claim_C3 ["a/b/c".data, "a/b/d".data] (by decide) 2 (by decide)
  exact ⟨h.1 "a/b/c".data (by decide), h.2 5 (by decide)⟩

/-- C4: as frozen the claim is falsified below; this is the amended form.
Observing `"a/b/c"`, `"a/b/d"`, `"a/x"` from the unset state yields the
inferred prefix `"a"` — the segment-level common ancestor cut just
before the separator (`common` cuts at `a[:last]` where `last` is the
index of the last shared `'/'`) — not `"a/b"` truncated mid-segment and
not the empty string. -/
theorem claim_C4 :
    inferPrefix ["a/b/c".data, "a/b/d".data, "a/x".data] = "a".data ∧
      "a".data ≠ "a/b".data ∧ "a".data ≠ ([] : GoStr) := by
  decide

/-- C4 counterexample: the claim expects the trailing separator to be
kept (`"a/"`), but the code yields `"a"`. -/
theorem claim_C4_counterexample :
    inferPrefix ["a/b/c".data, "a/b/d".data, "a/x".data] = "a".data ∧
      ("a".data : GoStr) ≠ "a/".data := by
  decide

/-- C10: whatever the current prefix state is, the prefix the decode loop
attaches to an event is a byte-level string prefix of that event's
`Package`: `common` always returns a common prefix of both of its
arguments, the adjustment step always returns a prefix of the observed
package, and the state after one loop iteration carries such a prefix. -/
theorem claim_C10 (a b p pkg : GoStr) (st : LoopState) (ev : TestEvent) :
    (common a b <+: a ∧ common a b <+: b) ∧ (nextPrefix p pkg <+: pkg) ∧
      ((step st ev).pfx <+: ev.Package) := by
  refine ⟨common_prefix_both a b, nextPrefix_prefix p pkg, ?_⟩
  rw [step_pfx]
  exact nextPrefix_prefix st.pfx ev.Package

theorem nextPrefix_same (p P : GoStr) (h : p = P ∨ p = unsetPrefix) : nextPrefix p P = P := by
  have hrefl : P.isPrefixOf P = true := List.isPrefixOf_iff_prefix.mpr (List.prefix_refl P)
  rcases h with rfl | rfl
  · by_cases hu : p = unsetPrefix
    · simp [nextPrefix, hu]
    · simp [nextPrefix, hu, hrefl]
  · simp [nextPrefix]

/-- The single-package run invariant behind claims C1 and C2: while a
test `t` has seen only buffered (non-terminal) actions, the in-flight
buffer entry under `t`'s rendered name holds exactly `t`'s events in
arrival order (with the stable prefix attached), no entry under any
other key holds an event of `t`, and the failure log's `t`-entries are
untouched. -/
theorem run_buffer_inv (P t : GoStr) (ht : t ≠ ([] : GoStr)) :
    ∀ (ys : List TestEvent) (st : LoopState),
      (st.pfx = P ∨ st.pfx = unsetPrefix) →
      (∀ e ∈ ys, e.Package = P) →
      (∀ e ∈ ys, e.Test = t → bufferedAction e.Action) →
      (∀ k, k ≠ nameOf P P t → ∀ x ∈ mapGet st.inProgress k, x.Test ≠ t) →
      ((ys.foldl step st).pfx = P ∨ (ys.foldl step st).pfx = unsetPrefix) ∧
        (∀ k, k ≠ nameOf P P t → ∀ x ∈ mapGet (ys.foldl step st).inProgress k, x.Test ≠ t) ∧
        mapGet (ys.foldl step st).inProgress (nameOf P P t)
          = mapGet st.inProgress (nameOf P P t)
            ++ (ys.filter fun e => e.Test = t).map (fun e => { e with pfx := P }) ∧
        (ys.foldl step st).fails.filter (fun e => e.Test = t)
          = st.fails.filter (fun e => e.Test = t) := by
  intro ys
  induction ys with
  | nil => intro st h1 _ _ h4; exact ⟨h1, h4, by simp, rfl⟩
  | cons e es ih =>
      intro st hpfx hpkg hbuf hinv
      have hP : e.Package = P := hpkg e (by simp)
      have hnext : nextPrefix st.pfx e.Package = P := by
        rw [hP]; exact nextPrefix_same st.pfx P hpfx
      have hpkg' : ∀ x ∈ es, x.Package = P := fun x hx => hpkg x (List.mem_cons_of_mem e hx)
      have hbuf' : ∀ x ∈ es, x.Test = t → bufferedAction x.Action := fun x hx =>
        hbuf x (List.mem_cons_of_mem e hx)
      rw [List.foldl_cons]
      by_cases hTe : e.Test = []
      · have hTt : ¬ e.Test = t := by rw [hTe]; exact fun hh => ht hh.symm
        have hst : step st e
            = { pfx := P, sums := st.sums.add { e with pfx := nextPrefix st.pfx e.Package },
                fails := st.fails, inProgress := st.inProgress } := by
          rw [step_eq_pkgscope st e hTe, hnext]
        obtain ⟨r1, r2, r3, r4⟩ := ih (step st e) (by rw [hst]; exact Or.inl rfl) hpkg' hbuf'
          (by rw [hst]; exact hinv)
        refine ⟨r1, r2, ?_, ?_⟩
        · rw [r3, hst, List.filter_cons_of_neg (by simpa using hTt)]
        · rw [r4, hst]
      · by_cases hTt : e.Test = t
        · have hbufe : bufferedAction e.Action := hbuf e (by simp) hTt
          have hname : TestEvent.name { e with pfx := nextPrefix st.pfx e.Package }
              = nameOf P P t := by
            rw [hnext, name_eq_nameOf]; simp [hP, hTt]
          have hst : step st e
              = { pfx := P, sums := st.sums.add { e with pfx := nextPrefix st.pfx e.Package },
                  fails := st.fails,
                  inProgress := mapSet st.inProgress (nameOf P P t)
                    (mapGet st.inProgress (nameOf P P t) ++ [{ e with pfx := P }]) } := by
            rw [step_eq_buffer st e hTe hbufe, hname, hnext]
          obtain ⟨r1, r2, r3, r4⟩ := ih (step st e) (by rw [hst]; exact Or.inl rfl) hpkg' hbuf'
            (by
              rw [hst]
              intro k hk x hx
              rw [mapGet_set_ne _ _ _ _ hk] at hx
              exact hinv k hk x hx)
          refine ⟨r1, r2, ?_, ?_⟩
          · rw [r3, hst, List.filter_cons_of_pos (by simpa using hTt)]
            simp only [mapGet_set_self, List.map_cons, List.append_assoc, List.cons_append,
              List.nil_append]
          · rw [r4, hst]
        · have hkey : nameOf P P e.Test ≠ nameOf P P t := fun hh => hTt (nameOf_inj P P hh)
          have hname : TestEvent.name { e with pfx := nextPrefix st.pfx e.Package }
              = nameOf P P e.Test := by
            rw [hnext, name_eq_nameOf]; simp [hP]
          have hfilt : (List.filter (fun x => decide (x.Test = t)) (e :: es))
              = List.filter (fun x => decide (x.Test = t)) es :=
            List.filter_cons_of_neg (by simpa using hTt)
          by_cases hfail : e.Action = "fail".data
          · have hst : step st e
                = { pfx := P, sums := st.sums.add { e with pfx := nextPrefix st.pfx e.Package },
                    fails := st.fails ++ mapGet st.inProgress (nameOf P P e.Test),
                    inProgress := mapDel st.inProgress (nameOf P P e.Test) } := by
              rw [step_eq_fail st e hTe hfail, hname, hnext]
            obtain ⟨r1, r2, r3, r4⟩ := ih (step st e) (by rw [hst]; exact Or.inl rfl) hpkg' hbuf'
              (by
                rw [hst]
                intro k hk x hx
                by_cases hkk : k = nameOf P P e.Test
                · rw [hkk, mapGet_del_self] at hx; cases hx
                · rw [mapGet_del_ne _ _ _ hkk] at hx
                  exact hinv k hk x hx)
            refine ⟨r1, r2, ?_, ?_⟩
            · rw [r3, hst]
              have : mapGet (mapDel st.inProgress (nameOf P P e.Test)) (nameOf P P t)
                  = mapGet st.inProgress (nameOf P P t) :=
                mapGet_del_ne _ _ _ fun hh => hkey hh.symm
              rw [this, hfilt]
            · rw [r4, hst]
              have hnil : List.filter (fun x => decide (x.Test = t))
                  (mapGet st.inProgress (nameOf P P e.Test)) = [] := by
                rw [List.filter_eq_nil_iff]
                intro x hx
                simpa using hinv (nameOf P P e.Test) hkey x hx
              simp only [List.filter_append, hnil, List.append_nil]
          · by_cases hps : e.Action = "pass".data ∨ e.Action = "skip".data
            · have hst : step st e
                  = { pfx := P, sums := st.sums.add { e with pfx := nextPrefix st.pfx e.Package },
                      fails := st.fails,
                      inProgress := mapDel st.inProgress (nameOf P P e.Test) } := by
                rw [step_eq_passskip st e hTe hfail hps, hname, hnext]
              obtain ⟨r1, r2, r3, r4⟩ := ih (step st e) (by rw [hst]; exact Or.inl rfl) hpkg'
                hbuf'
                (by
                  rw [hst]
                  intro k hk x hx
                  by_cases hkk : k = nameOf P P e.Test
                  · rw [hkk, mapGet_del_self] at hx; cases hx
                  · rw [mapGet_del_ne _ _ _ hkk] at hx
                    exact hinv k hk x hx)
              refine ⟨r1, r2, ?_, ?_⟩
              · rw [r3, hst]
                have : mapGet (mapDel st.inProgress (nameOf P P e.Test)) (nameOf P P t)
                    = mapGet st.inProgress (nameOf P P t) :=
                  mapGet_del_ne _ _ _ fun hh => hkey hh.symm
                rw [this, hfilt]
              · rw [r4, hst]
            · have hbufe : bufferedAction e.Action :=
                ⟨hfail, fun h => hps (Or.inl h), fun h => hps (Or.inr h)⟩
              have hst : step st e
                  = { pfx := P, sums := st.sums.add { e with pfx := nextPrefix st.pfx e.Package },
                      fails := st.fails,
                      inProgress := mapSet st.inProgress (nameOf P P e.Test)
                        (mapGet st.inProgress (nameOf P P e.Test) ++ [{ e with pfx := P }]) } := by
                rw [step_eq_buffer st e hTe hbufe, hname, hnext]
              obtain ⟨r1, r2, r3, r4⟩ := ih (step st e) (by rw [hst]; exact Or.inl rfl) hpkg'
                hbuf'
                (by
                  rw [hst]
                  intro k hk x hx
                  by_cases hkk : k = nameOf P P e.Test
                  · rw [hkk, mapGet_set_self] at hx
                    rcases List.mem_append.mp hx with hx | hx
                    · exact hinv (nameOf P P e.Test) hkey x hx
                    · rcases List.mem_singleton.mp hx with rfl
                      simpa using hTt
                  · rw [mapGet_set_ne _ _ _ _ hkk] at hx
                    exact hinv k hk x hx)
              refine ⟨r1, r2, ?_, ?_⟩
              · rw [r3, hst]
                have : mapGet (mapSet st.inProgress (nameOf P P e.Test)
                      (mapGet st.inProgress (nameOf P P e.Test) ++ [{ e with pfx := P }]))
                      (nameOf P P t)
                    = mapGet st.inProgress (nameOf P P t) :=
                  mapGet_set_ne _ _ _ _ fun hh => hkey hh.symm
                rw [this, hfilt]
              · rw [r4, hst]

/-- C1: as frozen the claim is falsified below; this is the amended form,
restricted to streams whose events all report one package `P` (so that
the rendered buffer key of the test is stable and collision-free).  If a
test `t` emits only buffered (non-terminal) events before its terminal
event, then: on `fail`, the failure dump's `t`-entries are exactly `t`'s
buffered chunks in arrival order; on `pass`/`skip`, the dump contains no
`t`-entry at all. -/
theorem claim_C1 (P t : GoStr) (xs : List TestEvent) (term : TestEvent)
    (ht : t ≠ ([] : GoStr)) (hP : term.Package = P) (hT : term.Test = t)
    (hxs : ∀ e ∈ xs, e.Package = P)
    (hbuf : ∀ e ∈ xs, e.Test = t → bufferedAction e.Action) :
    (term.Action = "fail".data →
      ((runEvents unsetPrefix (xs ++ [term])).fails.filter (fun e => e.Test = t)).map
          (fun e => e.Output)
        = (xs.filter (fun e => e.Test = t)).map fun e => e.Output) ∧
    ((term.Action = "pass".data ∨ term.Action = "skip".data) →
      (runEvents unsetPrefix (xs ++ [term])).fails.filter (fun e => e.Test = t) = []) := by
  have htT : term.Test ≠ ([] : GoStr) := by rw [hT]; exact ht
  obtain ⟨r1, r2, r3, r4⟩ := run_buffer_inv P t ht xs (initialState unsetPrefix)
    (Or.inr rfl) hxs hbuf (by intro k hk x hx; simp [initialState, mapGet] at hx)
  have hrun : runEvents unsetPrefix (xs ++ [term])
      = step (xs.foldl step (initialState unsetPrefix)) term := by
    rw [runEvents, List.foldl_append, List.foldl_cons, List.foldl_nil]
  have hget : mapGet (xs.foldl step (initialState unsetPrefix)).inProgress (nameOf P P t)
      = (xs.filter fun e => e.Test = t).map (fun e => { e with pfx := P }) := by
    rw [r3]; simp [initialState, mapGet]
  have hfails : (xs.foldl step (initialState unsetPrefix)).fails.filter
      (fun e => e.Test = t) = [] := by
    rw [r4]; simp [initialState]
  have hnext : nextPrefix (xs.foldl step (initialState unsetPrefix)).pfx term.Package = P := by
    rw [hP]; exact nextPrefix_same _ P r1
  have hname : TestEvent.name
      { term with pfx := nextPrefix (xs.foldl step (initialState unsetPrefix)).pfx term.Package }
      = nameOf P P t := by
    rw [hnext, name_eq_nameOf]; simp [hP, hT]
  constructor
  · intro hfail
    rw [hrun, step_eq_fail _ term htT hfail, hname, hnext]
    simp only [List.filter_append, hfails, List.nil_append, hget]
    have hall : List.filter (fun e => decide (e.Test = t))
        ((xs.filter fun e => e.Test = t).map (fun e => { e with pfx := P }))
        = (xs.filter fun e => e.Test = t).map (fun e => { e with pfx := P }) := by
      rw [List.filter_eq_self]
      intro x hx
      obtain ⟨y, hy, rfl⟩ := List.mem_map.mp hx
      simpa using (List.mem_filter.mp hy).2
    rw [hall, List.map_map]
    rfl
  · intro hps
    have hfail : term.Action ≠ "fail".data := by
      rcases hps with h | h <;> (rw [h]; decide)
    rw [hrun, step_eq_passskip _ term htT hfail hps, hname, hnext]
    exact hfails

/-- C1 counterexample: in the stream below, test `T` of package `a/b`
emits one buffered `output` chunk and then a terminal `fail`, yet the
failure dump is empty — the intervening event for package `a/c` narrows
the display prefix, so the terminal event's rendered name no longer
matches the buffer key under which the chunk was stored. -/
theorem claim_C1_counterexample :
    (runEvents unsetPrefix
        [⟨"output".data, "a/b".data, "T".data, "boom".data, []⟩,
         ⟨"pass".data, "a/c".data, [], [], []⟩,
         ⟨"fail".data, "a/b".data, "T".data, [], []⟩]).fails = [] ∧
      bufferedAction "output".data := by
  decide

/-- Witness for C1 at the spec's Scenario B: one test, two output chunks,
then `fail`; the dump holds exactly those two chunks in order. -/
theorem claim_C1_witness :
    ((runEvents unsetPrefix
        ([⟨"output".data, "p".data, "T".data, "chunk1".data, []⟩,
          ⟨"output".data, "p".data, "T".data, "chunk2".data, []⟩]
          ++ [⟨"fail".data, "p".data, "T".data, [], []⟩])).fails.filter
        (fun e => e.Test = "T".data)).map (fun e => e.Output)
      = ["chunk1".data, "chunk2".data] := by
  have h := (claim_C1 "p".data "T".data
      [⟨"output".data, "p".data, "T".data, "chunk1".data, []⟩,
       ⟨"output".data, "p".data, "T".data, "chunk2".data, []⟩]
      ⟨"fail".data, "p".data, "T".data, [], []⟩
      (by decide) rfl rfl (by decide) (by decide)).1 rfl
  exact h.trans (by decide)

/-- The single-package dump-ordering invariant behind claim C2: the
`t`-entries already moved to the failure log, followed by the `t`-entries
still buffered, always form a subsequence of `t`'s buffered chunks in
arrival order. -/
theorem run_dump_sublist (P t : GoStr) (ht : t ≠ ([] : GoStr)) :
    ∀ (ys : List TestEvent) (st : LoopState),
      (st.pfx = P ∨ st.pfx = unsetPrefix) →
      (∀ e ∈ ys, e.Package = P) →
      (∀ k, k ≠ nameOf P P t → ∀ x ∈ mapGet st.inProgress k, x.Test ≠ t) →
      (∀ x ∈ mapGet st.inProgress (nameOf P P t), x.Test = t) →
      ((ys.foldl step st).pfx = P ∨ (ys.foldl step st).pfx = unsetPrefix) ∧
        (∀ k, k ≠ nameOf P P t → ∀ x ∈ mapGet (ys.foldl step st).inProgress k, x.Test ≠ t) ∧
        (∀ x ∈ mapGet (ys.foldl step st).inProgress (nameOf P P t), x.Test = t) ∧
        ((ys.foldl step st).fails.filter (fun e => e.Test = t)
            ++ mapGet (ys.foldl step st).inProgress (nameOf P P t)).Sublist
          ((st.fails.filter (fun e => e.Test = t) ++ mapGet st.inProgress (nameOf P P t))
            ++ (ys.filter fun e => e.Test = t ∧ bufferedAction e.Action).map
                fun e => { e with pfx := P }) := by
  intro ys
  induction ys with
  | nil => intro st h1 _ h3 h4; exact ⟨h1, h3, h4, by simp⟩
  | cons e es ih =>
      intro st hpfx hpkg hinv hinv2
      have hP : e.Package = P := hpkg e (by simp)
      have hnext : nextPrefix st.pfx e.Package = P := by
        rw [hP]; exact nextPrefix_same st.pfx P hpfx
      have hpkg' : ∀ x ∈ es, x.Package = P := fun x hx => hpkg x (List.mem_cons_of_mem e hx)
      rw [List.foldl_cons]
      have hassemble : ∀ st1 : LoopState, (st1.pfx = P ∨ st1.pfx = unsetPrefix) →
          (∀ k, k ≠ nameOf P P t → ∀ x ∈ mapGet st1.inProgress k, x.Test ≠ t) →
          (∀ x ∈ mapGet st1.inProgress (nameOf P P t), x.Test = t) →
          ((st1.fails.filter (fun e => e.Test = t)
              ++ mapGet st1.inProgress (nameOf P P t)).Sublist
            ((st.fails.filter (fun e => e.Test = t) ++ mapGet st.inProgress (nameOf P P t))
              ++ ([e].filter fun x => x.Test = t ∧ bufferedAction x.Action).map
                  fun x => { x with pfx := P })) →
          ((es.foldl step st1).pfx = P ∨ (es.foldl step st1).pfx = unsetPrefix) ∧
            (∀ k, k ≠ nameOf P P t →
              ∀ x ∈ mapGet (es.foldl step st1).inProgress k, x.Test ≠ t) ∧
            (∀ x ∈ mapGet (es.foldl step st1).inProgress (nameOf P P t), x.Test = t) ∧
            ((es.foldl step st1).fails.filter (fun e => e.Test = t)
                ++ mapGet (es.foldl step st1).inProgress (nameOf P P t)).Sublist
              ((st.fails.filter (fun e => e.Test = t) ++ mapGet st.inProgress (nameOf P P t))
                ++ ((e :: es).filter fun x => x.Test = t ∧ bufferedAction x.Action).map
                    fun x => { x with pfx := P }) := by
        intro st1 k1 k2 k3 k4
        obtain ⟨r1, r2, r3, r4⟩ := ih st1 k1 hpkg' k2 k3
        refine ⟨r1, r2, r3, ?_⟩
        have hfc : ((e :: es).filter fun x => x.Test = t ∧ bufferedAction x.Action)
            = ([e].filter fun x => x.Test = t ∧ bufferedAction x.Action)
              ++ (es.filter fun x => x.Test = t ∧ bufferedAction x.Action) := by
          rw [← List.filter_append]; rfl
        rw [hfc, List.map_append, ← List.append_assoc]
        exact r4.trans (List.Sublist.append_right k4 _)
      by_cases hTe : e.Test = []
      · have hTt : ¬ e.Test = t := by rw [hTe]; exact fun hh => ht hh.symm
        have hst : step st e
            = { pfx := P, sums := st.sums.add { e with pfx := nextPrefix st.pfx e.Package },
                fails := st.fails, inProgress := st.inProgress } := by
          rw [step_eq_pkgscope st e hTe, hnext]
        refine hassemble (step st e) (by rw [hst]; exact Or.inl rfl)
          (by rw [hst]; exact hinv) (by rw [hst]; exact hinv2) ?_
        rw [hst]
        simp [List.filter_cons, hTt]
      · by_cases hTt : e.Test = t
        · have hnamee : TestEvent.name { e with pfx := nextPrefix st.pfx e.Package }
              = nameOf P P t := by
            rw [hnext, name_eq_nameOf]; simp [hP, hTt]
          by_cases hfail : e.Action = "fail".data
          · have hst : step st e
                = { pfx := P, sums := st.sums.add { e with pfx := nextPrefix st.pfx e.Package },
                    fails := st.fails ++ mapGet st.inProgress (nameOf P P t),
                    inProgress := mapDel st.inProgress (nameOf P P t) } := by
              rw [step_eq_fail st e hTe hfail, hnamee, hnext]
            have hkeep : List.filter (fun x => decide (x.Test = t))
                (mapGet st.inProgress (nameOf P P t)) = mapGet st.inProgress (nameOf P P t) := by
              rw [List.filter_eq_self]; intro x hx; simpa using hinv2 x hx
            have hnb : ¬ (e.Test = t ∧ bufferedAction e.Action) := by
              rintro ⟨-, h1, -⟩; exact h1 hfail
            refine hassemble (step st e) (by rw [hst]; exact Or.inl rfl)
              (by
                rw [hst]
                intro k hk x hx
                rw [mapGet_del_ne _ _ _ hk] at hx
                exact hinv k hk x hx)
              (by rw [hst]; intro x hx; rw [mapGet_del_self] at hx; cases hx) ?_
            rw [hst]
            simp only [List.filter_append, hkeep, mapGet_del_self, List.append_nil,
              List.filter_cons, decide_eq_true_eq, if_neg hnb, List.filter_nil,
              List.map_nil]
            exact List.Sublist.refl _
          · by_cases hps : e.Action = "pass".data ∨ e.Action = "skip".data
            · have hst : step st e
                  = { pfx := P,
                      sums := st.sums.add { e with pfx := nextPrefix st.pfx e.Package },
                      fails := st.fails,
                      inProgress := mapDel st.inProgress (nameOf P P t) } := by
                rw [step_eq_passskip st e hTe hfail hps, hnamee, hnext]
              have hnb : ¬ (e.Test = t ∧ bufferedAction e.Action) := by
                rcases hps with h | h
                · rintro ⟨-, -, h2, -⟩; exact h2 h
                · rintro ⟨-, -, -, h3⟩; exact h3 h
              refine hassemble (step st e) (by rw [hst]; exact Or.inl rfl)
                (by
                  rw [hst]
                  intro k hk x hx
                  rw [mapGet_del_ne _ _ _ hk] at hx
                  exact hinv k hk x hx)
                (by rw [hst]; intro x hx; rw [mapGet_del_self] at hx; cases hx) ?_
              rw [hst]
              simp only [mapGet_del_self, List.append_nil, List.filter_cons,
                decide_eq_true_eq, if_neg hnb, List.filter_nil, List.map_nil]
              exact List.sublist_append_left _ _
            · have hbufe : bufferedAction e.Action :=
                ⟨hfail, fun h => hps (Or.inl h), fun h => hps (Or.inr h)⟩
              have hst : step st e
                  = { pfx := P,
                      sums := st.sums.add { e with pfx := nextPrefix st.pfx e.Package },
                      fails := st.fails,
                      inProgress := mapSet st.inProgress (nameOf P P t)
                        (mapGet st.inProgress (nameOf P P t)
                          ++ [{ e with pfx := P }]) } := by
                rw [step_eq_buffer st e hTe hbufe, hnamee, hnext]
              have hb : e.Test = t ∧ bufferedAction e.Action := ⟨hTt, hbufe⟩
              refine hassemble (step st e) (by rw [hst]; exact Or.inl rfl)
                (by
                  rw [hst]
                  intro k hk x hx
                  rw [mapGet_set_ne _ _ _ _ hk] at hx
                  exact hinv k hk x hx)
                (by
                  rw [hst]
                  intro x hx
                  rw [mapGet_set_self] at hx
                  rcases List.mem_append.mp hx with hx | hx
                  · exact hinv2 x hx
                  · rcases List.mem_singleton.mp hx with rfl
                    simpa using hTt) ?_
              rw [hst]
              simp only [mapGet_set_self, List.filter_cons, decide_eq_true_eq, if_pos hb,
                List.filter_nil, List.map_cons, List.map_nil, ← List.append_assoc]
              exact List.Sublist.refl _
        · have hkey : nameOf P P e.Test ≠ nameOf P P t := fun hh => hTt (nameOf_inj P P hh)
          have hnamee : TestEvent.name { e with pfx := nextPrefix st.pfx e.Package }
              = nameOf P P e.Test := by
            rw [hnext, name_eq_nameOf]; simp [hP]
          have hnb : ¬ (e.Test = t ∧ bufferedAction e.Action) := by
            rintro ⟨h1, -⟩; exact hTt h1
          have hgoal1 : ∀ m' : List (GoStr × List TestEvent),
              mapGet m' (nameOf P P t) = mapGet st.inProgress (nameOf P P t) →
              ((st.fails.filter (fun e => e.Test = t) ++ mapGet m' (nameOf P P t)).Sublist
                ((st.fails.filter (fun e => e.Test = t) ++ mapGet st.inProgress (nameOf P P t))
                  ++ ([e].filter fun x => x.Test = t ∧ bufferedAction x.Action).map
                      fun x => { x with pfx := P })) := by
            intro m' hm'
            simp only [hm', List.filter_cons, decide_eq_true_eq, if_neg hnb, List.filter_nil,
              List.map_nil, List.append_nil]
            exact List.Sublist.refl _
          by_cases hfail : e.Action = "fail".data
          · have hst : step st e
                = { pfx := P, sums := st.sums.add { e with pfx := nextPrefix st.pfx e.Package },
                    fails := st.fails ++ mapGet st.inProgress (nameOf P P e.Test),
                    inProgress := mapDel st.inProgress (nameOf P P e.Test) } := by
              rw [step_eq_fail st e hTe hfail, hnamee, hnext]
            have hnil : List.filter (fun x => decide (x.Test = t))
                (mapGet st.inProgress (nameOf P P e.Test)) = [] := by
              rw [List.filter_eq_nil_iff]
              intro x hx
              simpa using hinv (nameOf P P e.Test) hkey x hx
            refine hassemble (step st e) (by rw [hst]; exact Or.inl rfl)
              (by
                rw [hst]
                intro k hk x hx
                by_cases hkk : k = nameOf P P e.Test
                · rw [hkk, mapGet_del_self] at hx; cases hx
                · rw [mapGet_del_ne _ _ _ hkk] at hx
                  exact hinv k hk x hx)
              (by
                rw [hst]
                intro x hx
                rw [mapGet_del_ne _ _ _ (fun hh => hkey hh.symm)] at hx
                exact hinv2 x hx) ?_
            rw [hst]
            simp only [List.filter_append, hnil, List.append_nil]
            exact hgoal1 _ (mapGet_del_ne _ _ _ fun hh => hkey hh.symm)
          · by_cases hps : e.Action = "pass".data ∨ e.Action = "skip".data
            · have hst : step st e
                  = { pfx := P,
                      sums := st.sums.add { e with pfx := nextPrefix st.pfx e.Package },
                      fails := st.fails,
                      inProgress := mapDel st.inProgress (nameOf P P e.Test) } := by
                rw [step_eq_passskip st e hTe hfail hps, hnamee, hnext]
              refine hassemble (step st e) (by rw [hst]; exact Or.inl rfl)
                (by
                  rw [hst]
                  intro k hk x hx
                  by_cases hkk : k = nameOf P P e.Test
                  · rw [hkk, mapGet_del_self] at hx; cases hx
                  · rw [mapGet_del_ne _ _ _ hkk] at hx
                    exact hinv k hk x hx)
                (by
                  rw [hst]
                  intro x hx
                  rw [mapGet_del_ne _ _ _ (fun hh => hkey hh.symm)] at hx
                  exact hinv2 x hx) ?_
              rw [hst]
              exact hgoal1 _ (mapGet_del_ne _ _ _ fun hh => hkey hh.symm)
            · have hbufe : bufferedAction e.Action :=
                ⟨hfail, fun h => hps (Or.inl h), fun h => hps (Or.inr h)⟩
              have hst : step st e
                  = { pfx := P,
                      sums := st.sums.add { e with pfx := nextPrefix st.pfx e.Package },
                      fails := st.fails,
                      inProgress := mapSet st.inProgress (nameOf P P e.Test)
                        (mapGet st.inProgress (nameOf P P e.Test)
                          ++ [{ e with pfx := P }]) } := by
                rw [step_eq_buffer st e hTe hbufe, hnamee, hnext]
              refine hassemble (step st e) (by rw [hst]; exact Or.inl rfl)
                (by
                  rw [hst]
                  intro k hk x hx
                  by_cases hkk : k = nameOf P P e.Test
                  · rw [hkk, mapGet_set_self] at hx
                    rcases List.mem_append.mp hx with hx | hx
                    · exact hinv (nameOf P P e.Test) hkey x hx
                    · rcases List.mem_singleton.mp hx with rfl
                      simpa using hTt
                  · rw [mapGet_set_ne _ _ _ _ hkk] at hx
                    exact hinv k hk x hx)
                (by
                  rw [hst]
                  intro x hx
                  rw [mapGet_set_ne _ _ _ _ (fun hh => hkey hh.symm)] at hx
                  exact hinv2 x hx) ?_
              rw [hst]
              exact hgoal1 _ (mapGet_set_ne _ _ _ _ fun hh => hkey hh.symm)

/-- C2: as frozen the claim is falsified below; this is the amended form.
Within one test's own chunks the failure dump preserves arrival order
and never duplicates: in a stream whose events all report one package,
the dump's entries for a test `t` form a subsequence of `t`'s buffered
chunks in arrival order.  (Across different failed tests the dump
instead groups chunks by test, in the order of the tests' `fail`
events.) -/
theorem claim_C2 (P t : GoStr) (evs : List TestEvent) (ht : t ≠ ([] : GoStr))
    (hevs : ∀ e ∈ evs, e.Package = P) :
    ((runEvents unsetPrefix evs).fails.filter fun e => e.Test = t).Sublist
      ((evs.filter fun e => e.Test = t ∧ bufferedAction e.Action).map
        fun e => { e with pfx := P }) := by
  obtain ⟨-, -, -, r4⟩ := run_dump_sublist P t ht evs (initialState unsetPrefix)
    (Or.inr rfl) hevs (by intro k hk x hx; simp [initialState, mapGet] at hx)
    (by intro x hx; simp [initialState, mapGet] at hx)
  have h1 : ((runEvents unsetPrefix evs).fails.filter fun e => e.Test = t).Sublist
      ((runEvents unsetPrefix evs).fails.filter (fun e => e.Test = t)
        ++ mapGet (runEvents unsetPrefix evs).inProgress (nameOf P P t)) :=
    List.sublist_append_left _ _
  have h2 := h1.trans r4
  simpa [initialState, mapGet] using h2

/-- C2 counterexample: chunks of two different failed tests appear in the
dump in the order of the tests' `fail` events, not in chunk arrival
order — here `a1` arrives before `b1` but the dump lists `b1` first. -/
theorem claim_C2_counterexample :
    ((runEvents unsetPrefix
        [⟨"output".data, "p".data, "A".data, "a1".data, []⟩,
         ⟨"output".data, "p".data, "B".data, "b1".data, []⟩,
         ⟨"fail".data, "p".data, "B".data, [], []⟩,
         ⟨"fail".data, "p".data, "A".data, [], []⟩]).fails.map fun e => e.Output)
      = ["b1".data, "a1".data] ∧ ("a1".data : GoStr) ≠ "b1".data := by
  decide

/-- Witness for C2 on the stream of the counterexample, for test `A`. -/
theorem claim_C2_witness :
    ((runEvents unsetPrefix
        [⟨"output".data, "p".data, "A".data, "a1".data, []⟩,
         ⟨"output".data, "p".data, "B".data, "b1".data, []⟩,
         ⟨"fail".data, "p".data, "B".data, [], []⟩,
         ⟨"fail".data, "p".data, "A".data, [], []⟩]).fails.filter
        fun e => e.Test = "A".data).Sublist
      ((([⟨"output".data, "p".data, "A".data, "a1".data, []⟩,
          ⟨"output".data, "p".data, "B".data, "b1".data, []⟩,
          ⟨"fail".data, "p".data, "B".data, [], []⟩,
          ⟨"fail".data, "p".data, "A".data, [], []⟩] : List TestEvent).filter
          fun e => e.Test = "A".data ∧ bufferedAction e.Action).map
        fun e => { e with pfx := "p".data }) :=
  claim_C2 "p".data "A".data
    [⟨"output".data, "p".data, "A".data, "a1".data, []⟩,
     ⟨"output".data, "p".data, "B".data, "b1".data, []⟩,
     ⟨"fail".data, "p".data, "B".data, [], []⟩,
     ⟨"fail".data, "p".data, "A".data, [], []⟩]
    (by decide) (by decide)

/-! ## Counters (claim C5) -/

/-- Field-wise order on the counter structure. -/
def sumsLe (x y : sums) : Prop :=
  x.total ≤ y.total ∧ x.failed ≤ y.failed ∧ x.skipped ≤ y.skipped ∧ x.passed ≤ y.passed

theorem sumsLe_refl (x : sums) : sumsLe x x := ⟨le_refl _, le_refl _, le_refl _, le_refl _⟩

theorem sumsLe_trans {x y z : sums} (h1 : sumsLe x y) (h2 : sumsLe y z) : sumsLe x z :=
  ⟨h1.1.trans h2.1, h1.2.1.trans h2.2.1, h1.2.2.1.trans h2.2.2.1, h1.2.2.2.trans h2.2.2.2⟩

theorem record_preserves_eq (s : sums) (a : GoStr)
    (h : s.total = s.passed + s.failed + s.skipped) :
    (s.record a).total = (s.record a).passed + (s.record a).failed + (s.record a).skipped := by
  unfold sums.record sums.addPass sums.addSkip sums.addFail
  split_ifs <;> (try simp) <;> omega

theorem record_mono (s : sums) (a : GoStr) : sumsLe s (s.record a) := by
  unfold sums.record sums.addPass sums.addSkip sums.addFail
  split_ifs <;> exact ⟨by simp, by simp, by simp, by simp⟩

theorem add_preserves_eq (ss : summary) (ev : TestEvent)
    (h1 : ss.tests.total = ss.tests.passed + ss.tests.failed + ss.tests.skipped)
    (h2 : ss.packages.total = ss.packages.passed + ss.packages.failed + ss.packages.skipped) :
    (ss.add ev).tests.total
        = (ss.add ev).tests.passed + (ss.add ev).tests.failed + (ss.add ev).tests.skipped ∧
      (ss.add ev).packages.total
        = (ss.add ev).packages.passed + (ss.add ev).packages.failed
          + (ss.add ev).packages.skipped := by
  unfold summary.add
  split_ifs
  · exact ⟨h1, record_preserves_eq _ _ h2⟩
  · exact ⟨record_preserves_eq _ _ h1, h2⟩

theorem add_mono (ss : summary) (ev : TestEvent) :
    sumsLe ss.tests (ss.add ev).tests ∧ sumsLe ss.packages (ss.add ev).packages := by
  unfold summary.add
  split_ifs
  · exact ⟨sumsLe_refl _, record_mono _ _⟩
  · exact ⟨record_mono _ _, sumsLe_refl _⟩

theorem fold_add_eq (evs : List TestEvent) : ∀ ss : summary,
    (ss.tests.total = ss.tests.passed + ss.tests.failed + ss.tests.skipped) →
    (ss.packages.total = ss.packages.passed + ss.packages.failed + ss.packages.skipped) →
    (evs.foldl summary.add ss).tests.total
        = (evs.foldl summary.add ss).tests.passed + (evs.foldl summary.add ss).tests.failed
          + (evs.foldl summary.add ss).tests.skipped ∧
      (evs.foldl summary.add ss).packages.total
        = (evs.foldl summary.add ss).packages.passed
          + (evs.foldl summary.add ss).packages.failed
          + (evs.foldl summary.add ss).packages.skipped := by
  induction evs with
  | nil => intro ss h1 h2; exact ⟨h1, h2⟩
  | cons e es ih =>
      intro ss h1 h2
      rw [List.foldl_cons]
      obtain ⟨q1, q2⟩ := add_preserves_eq ss e h1 h2
      exact ih (ss.add e) q1 q2

theorem fold_add_mono (evs : List TestEvent) : ∀ ss : summary,
    sumsLe ss.tests (evs.foldl summary.add ss).tests ∧
      sumsLe ss.packages (evs.foldl summary.add ss).packages := by
  induction evs with
  | nil => intro ss; exact ⟨sumsLe_refl _, sumsLe_refl _⟩
  | cons e es ih =>
      intro ss
      rw [List.foldl_cons]
      obtain ⟨q1, q2⟩ := add_mono ss e
      obtain ⟨r1, r2⟩ := ih (ss.add e)
      exact ⟨sumsLe_trans q1 r1, sumsLe_trans q2 r2⟩

/-- C5: for both counter structures, after any sequence of recorded
events `total = passed + failed + skipped`; each recorded terminal
classification (`pass`, `skip`, `fail`) increments `total` and exactly
one of `passed`, `skipped`, `failed` of the scope the event's `Test`
field selects; all fields are non-negative and never decrease across a
run; and the driver's loop step records exactly one event per iteration. -/
theorem claim_C5 (evs : List TestEvent) (s : sums) (ss : summary) (ev : TestEvent)
    (st : LoopState) :
    ((evs.foldl summary.add zeroSummary).tests.total
        = (evs.foldl summary.add zeroSummary).tests.passed
          + (evs.foldl summary.add zeroSummary).tests.failed
          + (evs.foldl summary.add zeroSummary).tests.skipped ∧
      (evs.foldl summary.add zeroSummary).packages.total
        = (evs.foldl summary.add zeroSummary).packages.passed
          + (evs.foldl summary.add zeroSummary).packages.failed
          + (evs.foldl summary.add zeroSummary).packages.skipped) ∧
    (s.record "pass".data
        = { total := s.total + 1, failed := s.failed, skipped := s.skipped,
            passed := s.passed + 1 } ∧
      s.record "skip".data
        = { total := s.total + 1, failed := s.failed, skipped := s.skipped + 1,
            passed := s.passed } ∧
      s.record "fail".data
        = { total := s.total + 1, failed := s.failed + 1, skipped := s.skipped,
            passed := s.passed }) ∧
    ((ev.Test = [] → ss.add ev = { ss with packages := ss.packages.record ev.Action }) ∧
      (ev.Test ≠ [] → ss.add ev = { ss with tests := ss.tests.record ev.Action })) ∧
    ((step st ev).sums = st.sums.add { ev with pfx := nextPrefix st.pfx ev.Package }) ∧
    (sumsLe ss.tests (evs.foldl summary.add ss).tests ∧
      sumsLe ss.packages (evs.foldl summary.add ss).packages) ∧
    (sumsLe zeroSums (evs.foldl summary.add zeroSummary).tests ∧
      sumsLe zeroSums (evs.foldl summary.add zeroSummary).packages) := by
  refine ⟨fold_add_eq evs zeroSummary rfl rfl, ⟨?_, ?_, ?_⟩, ⟨?_, ?_⟩, ?_, fold_add_mono evs ss,
    fold_add_mono evs zeroSummary⟩
  · unfold sums.record sums.addPass
    rw [if_pos rfl]
  · unfold sums.record sums.addSkip
    rw [if_neg (by decide), if_pos rfl]
  · unfold sums.record sums.addFail
    rw [if_neg (by decide), if_neg (by decide), if_pos rfl]
  · intro h; unfold summary.add; rw [if_pos h]
  · intro h; unfold summary.add; rw [if_neg h]
  · simp only [step]
    split_ifs <;> rfl

/-- Witness for C5 at concrete counters and events. -/
theorem claim_C5_witness :
    sums.record { total := 5, failed := 1, skipped := 1, passed := 3 } "pass".data
        = { total := 6, failed := 1, skipped := 1, passed := 4 } ∧
      summary.add zeroSummary ⟨"pass".data, "p".data, [], [], []⟩
        = { zeroSummary with
            packages := zeroSummary.packages.record "pass".data } := by
  have h := claim_C5 [] { total := 5, failed := 1, skipped := 1, passed := 3 } zeroSummary
    ⟨"pass".data, "p".data, [], [], []⟩ (initialState unsetPrefix)
  exact ⟨h.2.1.1, h.2.2.1.1 rfl⟩

/-! ## The buffer key (claim C6) -/

/-- C6: as frozen the claim is falsified below; this is the amended form.
The key under which a test's in-flight output is buffered is the event's
rendered `name()`, which depends only on the event's `Package`, `Test`
and the display prefix attached at classification time — never on
`Action` or `Output` — so two events with the same `Package`, `Test`
and the same attached prefix map to the same buffer entry; the key is
not prefix-independent. -/
theorem claim_C6 :
    (∀ a₁ a₂ o₁ o₂ px pkg t : GoStr,
      TestEvent.name ⟨a₁, pkg, t, o₁, px⟩ = TestEvent.name ⟨a₂, pkg, t, o₂, px⟩) ∧
    ∀ ev : TestEvent, ev.name = nameOf ev.pfx ev.Package ev.Test :=
  ⟨fun _ _ _ _ _ _ _ => rfl, fun _ => rfl⟩

/-- C6 counterexample: two events with the same `Package` and `Test` but
different attached prefixes — both prefixes arising in one run — are
keyed under different buffer entries. -/
theorem claim_C6_counterexample :
    (runEvents unsetPrefix
        [⟨"output".data, "a/b".data, "T".data, "x".data, []⟩]).pfx = "a/b".data ∧
      (runEvents unsetPrefix
        [⟨"output".data, "a/b".data, "T".data, "x".data, []⟩,
         ⟨"pass".data, "a/c".data, [], [], []⟩]).pfx = "a".data ∧
      nameOf "a/b".data "a/b".data "T".data ≠ nameOf "a".data "a/b".data "T".data := by
  decide

/-! ## `error` events (claim C7) -/

theorem fails_test_ne_nil (evs : List TestEvent) : ∀ st : LoopState,
    (∀ x ∈ st.fails, x.Test ≠ ([] : GoStr)) →
    (∀ k, ∀ x ∈ mapGet st.inProgress k, x.Test ≠ ([] : GoStr)) →
    ∀ x ∈ (evs.foldl step st).fails, x.Test ≠ ([] : GoStr) := by
  induction evs with
  | nil => intro st h1 _; exact h1
  | cons e es ih =>
      intro st h1 h2
      rw [List.foldl_cons]
      by_cases hTe : e.Test = []
      · rw [step_eq_pkgscope st e hTe]
        exact ih _ h1 h2
      · by_cases hfail : e.Action = "fail".data
        · rw [step_eq_fail st e hTe hfail]
          refine ih _ ?_ ?_
          · intro x hx
            rcases List.mem_append.mp hx with hx | hx
            · exact h1 x hx
            · exact h2 _ x hx
          · intro k x hx
            by_cases hkk : k = TestEvent.name { e with pfx := nextPrefix st.pfx e.Package }
            · rw [hkk, mapGet_del_self] at hx; cases hx
            · rw [mapGet_del_ne _ _ _ hkk] at hx
              exact h2 k x hx
        · by_cases hps : e.Action = "pass".data ∨ e.Action = "skip".data
          · rw [step_eq_passskip st e hTe hfail hps]
            refine ih _ h1 ?_
            intro k x hx
            by_cases hkk : k = TestEvent.name { e with pfx := nextPrefix st.pfx e.Package }
            · rw [hkk, mapGet_del_self] at hx; cases hx
            · rw [mapGet_del_ne _ _ _ hkk] at hx
              exact h2 k x hx
          · have hbufe : bufferedAction e.Action :=
              ⟨hfail, fun h => hps (Or.inl h), fun h => hps (Or.inr h)⟩
            rw [step_eq_buffer st e hTe hbufe]
            refine ih _ h1 ?_
            intro k x hx
            by_cases hkk : k = TestEvent.name { e with pfx := nextPrefix st.pfx e.Package }
            · rw [hkk, mapGet_set_self] at hx
              rcases List.mem_append.mp hx with hx | hx
              · exact h2 _ x hx
              · rcases List.mem_singleton.mp hx with rfl
                simpa using hTe
            · rw [mapGet_set_ne _ _ _ _ hkk] at hx
              exact h2 k x hx

/-- C7: as frozen the claim is falsified below; this is the amended form.
An `error` event with an empty test name is tallied into neither counter
structure (`summary.add` recognizes only `pass`, `skip`, `fail`), leaves
the failure log and the in-flight buffer untouched, and its attached
output never reaches the failure dump: the dump only ever holds events
with a non-empty test name. -/
theorem claim_C7 :
    (∀ (st : LoopState) (ev : TestEvent), ev.Action = "error".data → ev.Test = [] →
      (step st ev).sums = st.sums ∧ (step st ev).fails = st.fails ∧
        (step st ev).inProgress = st.inProgress) ∧
    ∀ (p0 : GoStr) (evs : List TestEvent),
      ∀ x ∈ (runEvents p0 evs).fails, x.Test ≠ ([] : GoStr) := by
  constructor
  · intro st ev ha hT
    rw [step_eq_pkgscope st ev hT]
    refine ⟨?_, rfl, rfl⟩
    show st.sums.add { ev with pfx := nextPrefix st.pfx ev.Package } = st.sums
    unfold summary.add
    rw [if_pos (by simpa using hT)]
    show { st.sums with packages := st.sums.packages.record ev.Action } = st.sums
    rw [ha]
    unfold sums.record
    rw [if_neg (by decide), if_neg (by decide), if_neg (by decide)]
  · intro p0 evs
    exact fails_test_ne_nil evs (initialState p0) (by intro x hx; cases hx)
      (by intro k x hx; cases hx)

/-- C7 counterexample: a package-level `error` event carrying output is
tallied into no counter at all — its package counters stay zero — and
its output never reaches the failure dump. -/
theorem claim_C7_counterexample :
    (runEvents unsetPrefix
        [⟨"error".data, "p".data, [], "boom".data, []⟩]).sums.packages.total = 0 ∧
      (runEvents unsetPrefix
        [⟨"error".data, "p".data, [], "boom".data, []⟩]).fails = [] := by
  decide

/-- Witness for C7: a concrete `error` event leaves the state's log
untouched, and a concrete failing run's dump entry has a test name. -/
theorem claim_C7_witness :
    (step (initialState unsetPrefix) ⟨"error".data, "p".data, [], "boom".data, []⟩).fails
        = (initialState unsetPrefix).fails ∧
      ("T".data : GoStr) ≠ ([] : GoStr) := by
  refine ⟨(claim_C7.1 (initialState unsetPrefix)
    ⟨"error".data, "p".data, [], "boom".data, []⟩ rfl rfl).2.1, ?_⟩
  exact claim_C7.2 unsetPrefix
    [⟨"output".data, "p".data, "T".data, "x".data, []⟩,
     ⟨"fail".data, "p".data, "T".data, [], []⟩]
    ⟨"output".data, "p".data, "T".data, "x".data, "p".data⟩ (by decide)

/-! ## Division safety in the summary rendering (claim C8) -/

/-- C8: `isZero()` is true exactly when `tests.total - tests.skipped ≤ 0`;
whenever it is false the percentage's divisor is non-zero (so
`100*passed/(total-skipped)` never divides by zero), the percentage is
clamped to `[0, 100]`, and whenever it is true `big` renders the neutral
"no tests ran" glyph lines, which do not depend on the counters at all. -/
theorem claim_C8 (ss : summary) (fnt : font) :
    (ss.isZero = true ↔ ss.tests.total - ss.tests.skipped ≤ 0) ∧
    (ss.isZero = false → ss.tests.total - ss.tests.skipped ≠ 0) ∧
    (0 ≤ ss.bigPercent ∧ ss.bigPercent ≤ 100) ∧
    (ss.isZero = true → ss.big fnt = bigZeroLines fnt) := by
  refine ⟨by simp [summary.isZero], ?_, ?_, ?_⟩
  · intro h
    have : ¬ (ss.tests.total - ss.tests.skipped ≤ 0) := by
      simpa [summary.isZero] using h
    omega
  · unfold summary.bigPercent
    by_cases h : ss.isZero
    · simp [h]
    · simp only [h, if_false, Bool.false_eq_true]
      split_ifs <;> omega
  · intro h
    unfold summary.big bigZeroLines
    simp [h]

/-- Witness for C8: a non-degenerate summary's percentage is in range,
and the all-skipped summary renders the neutral lines. -/
theorem claim_C8_witness :
    (0 ≤ (⟨⟨4, 1, 1, 2⟩, zeroSums⟩ : summary).bigPercent ∧
        (⟨⟨4, 1, 1, 2⟩, zeroSums⟩ : summary).bigPercent ≤ 100) ∧
      zeroSummary.big boringFont = bigZeroLines boringFont := by
  refine ⟨(claim_C8 (⟨⟨4, 1, 1, 2⟩, zeroSums⟩ : summary) boringFont).2.2.1, ?_⟩
  exact (claim_C8 zeroSummary boringFont).2.2.2 (by decide)

/-! ## Colour bucket bounds (claim C9) -/

/-- C9: as frozen the claim is falsified below; this is the amended form,
restricted to `passed ≤ denom` (which always holds for the arguments the
program passes, `passed` and `total - skipped` with `failed ≥ 0`).  For
`0 ≤ passed ≤ denom` and `denom > 0` the bucket `9*passed/denom` — with
the boundary value `9`, reached at `passed = denom`, folded into `8`,
and negative values folded to `0` — lies in `[0, 8]`, so the lookup into
the fixed 9-entry interpolation table is in bounds. -/
theorem claim_C9 (p q : Int) (hp : 0 ≤ p) (hpq : p ≤ q) (hq : 0 < q) :
    (0 ≤ colourBucket p q ∧ colourBucket p q ≤ 8) ∧ colourBucket q q = 8 ∧
      (colourBucket p q).toNat < colourTable.length := by
  have h9q : Int.tdiv (9 * q) q = 9 := by
    rw [Int.tdiv_eq_ediv (by omega) (by omega)]
    exact Int.mul_ediv_cancel 9 (by omega)
  have hr0 : 0 ≤ Int.tdiv (9 * p) q := by
    rw [Int.tdiv_eq_ediv (by omega) (by omega)]
    exact Int.ediv_nonneg (by omega) (by omega)
  have hr9 : Int.tdiv (9 * p) q ≤ 9 := by
    rw [Int.tdiv_eq_ediv (by omega) (by omega)]
    calc (9 * p) / q ≤ (9 * q) / q := Int.ediv_le_ediv hq (by omega)
    _ = 9 := Int.mul_ediv_cancel 9 (by omega)
  have hb : 0 ≤ colourBucket p q ∧ colourBucket p q ≤ 8 := by
    simp only [colourBucket]
    split_ifs <;> omega
  refine ⟨hb, ?_, ?_⟩
  · simp only [colourBucket, h9q]
    norm_num
  · have hlen : colourTable.length = 9 := rfl
    rw [hlen]
    omega

/-- C9 counterexample: at `passed = 2`, `denom = 1` the bucket is `18` —
the computation folds only the exact boundary value `9` (and negatives),
it does not clamp arbitrary over-unity ratios into `[0, 8]`. -/
theorem claim_C9_counterexample :
    colourBucket 2 1 = 18 ∧ ¬ colourBucket 2 1 ≤ 8 := by decide

/-- Witness for C9 at `passed = 3`, `denom = 4`. -/
theorem claim_C9_witness :
    (0 ≤ colourBucket 3 4 ∧ colourBucket 3 4 ≤ 8) ∧ colourBucket 4 4 = 8 ∧
      (colourBucket 3 4).toNat < colourTable.length :=
  claim_C9 3 4 (by decide) (by decide) (by decide)
